import Mathlib

/-
Formal model of the checkpoint quantization utilities in
paddlenlp/quantization/checkpoint_quantization_utils.py.

Modelling conventions:
- numpy / paddle tensors are embedded as shape-carrying arrays of exact
  rationals (Arr1 / Arr2 below); all numpy operations act elementwise, so
  scalar integer functions (the 4-bit packing codec) are embedded on ℤ.
- machine integers: astype("int8") / astype("uint8") wrap modulo 2^8 and are
  modelled by explicit % 256 (toInt8 / toUInt8 below).
- float arithmetic is idealized as exact rational arithmetic, except for the
  group-wise asymmetric quantization path, whose NaN behaviour is part of the
  source (np.nan_to_num); that path is embedded over an explicit domain NF
  with NaN and infinities.
- python integer floor division a // b is Int.fdiv; python slicing l[a:b]
  (step 1, possibly negative bounds) is pySlice below.
-/

/-- One-dimensional numpy array: a length and a (total) indexing function.
Indices at or above len are junk and never relevant to any statement. -/
structure Arr1 (α : Type) where
  len : ℕ
  val : ℕ → α

/-- Two-dimensional numpy array (rows, cols) with a total indexing function. -/
structure Arr2 (α : Type) where
  rows : ℕ
  cols : ℕ
  val : ℕ → ℕ → α

/-- Extensional equality of 1-d arrays: same length, same entries below it. -/
def VecEq {α : Type} (u v : Arr1 α) : Prop :=
  u.len = v.len ∧ ∀ j < u.len, u.val j = v.val j

/-- Extensional equality of 2-d arrays: same shape, same entries inside it. -/
def MatEq {α : Type} (A B : Arr2 α) : Prop :=
  A.rows = B.rows ∧ A.cols = B.cols ∧ ∀ i < A.rows, ∀ j < A.cols, A.val i j = B.val i j

instance {α : Type} [DecidableEq α] (u v : Arr1 α) : Decidable (VecEq u v) := by
  unfold VecEq; infer_instance

instance {α : Type} [DecidableEq α] (A B : Arr2 α) : Decidable (MatEq A B) := by
  unfold MatEq; infer_instance

/-- Wrap an integer into the int8 value range [-128, 127], as numpy
astype("int8") does (two's-complement wrap modulo 256). -/
def toInt8 (n : ℤ) : ℤ :=
  if n % 256 < 128 then n % 256 else n % 256 - 256

/-- Wrap an integer into the uint8 value range [0, 255], as numpy
astype("uint8") does on integer input (wrap modulo 256). -/
def toUInt8 (n : ℤ) : ℤ := n % 256

/-
4-bit packing codec (source lines 164-194).

merge_int4(x, y):
    int4_high = x << 4
    int4_low = y & 0x0F
    final = int4_high | int4_low
    return final.astype("int8")
The mask y & 0x0F keeps the low 4 bits of the two's-complement value y,
which is y % 16 (Int.emod, always in [0, 15]).  int4_high has zero low
nibble, so the bitwise or of the two operands is their sum.  The trailing
astype("int8") wraps the byte (toInt8); when x is already int8 the shift
wraps first, which yields the same byte modulo 256.
-/
def merge_int4 (x y : ℤ) : ℤ :=
  let int4_high := x <<< (4 : ℤ)
  let int4_low := y % 16
  let final := int4_high + int4_low
  toInt8 final

/-
split_int8(final):
    int4_high = final >> 4
    int4_low = final & 0x0F
    int4_high = np.where(int4_high > 8, int4_high - 16, int4_high)
    return int4_high, int4_low
final is an int8 value, so >> is an arithmetic right shift (Int >>> is the
floor-division shift, matching numpy on signed integers), and & 0x0F is
final % 16.  Note the np.where sign patch is applied to the high nibble
only; the low nibble is returned as the raw masked value in [0, 15].
-/
def split_int8 (final : ℤ) : ℤ × ℤ :=
  let int4_high := final >>> (4 : ℤ)
  let int4_low := final % 16
  let int4_high_patched := if int4_high > 8 then int4_high - 16 else int4_high
  (int4_high_patched, int4_low)

/-- Rounding used by np.round: round half to even (banker's rounding). -/
def npRound (q : ℚ) : ℤ :=
  if q - ⌊q⌋ < 1/2 then ⌊q⌋
  else if 1/2 < q - ⌊q⌋ then ⌊q⌋ + 1
  else if 2 ∣ ⌊q⌋ then ⌊q⌋ else ⌊q⌋ + 1

/-- np.clip on an integer value with integer bounds: min(max(v, lo), hi). -/
def clipZ (v lo hi : ℤ) : ℤ := min (max v lo) hi

/-- The epsilon 1e-8 used by the channel statistics functions. -/
def npEps : ℚ := 1 / 100000000

/-- The np.where(v == 0, eps, v) guard of the channel statistics functions. -/
def epsIfZero (v : ℚ) : ℚ := if v = 0 then npEps else v

/-- np.max over a nonempty list of values (0 is a junk value for the empty
list, on which np.max raises; no statement uses that case). -/
def listMax : List ℚ → ℚ
  | [] => 0
  | a :: as => as.foldl max a

/-- np.min over a nonempty list of values (0 is junk for the empty list). -/
def listMin : List ℚ → ℚ
  | [] => 0
  | a :: as => as.foldl min a

/-- Normalize a python slice bound: negative indices count from the end and
both directions clamp into [0, n]. -/
def pyIdx (n : ℕ) (i : ℤ) : ℕ :=
  if i < 0 then (max (i + n) 0).toNat else min i.toNat n

/-- Python slicing v[a:b] (step 1) on a 1-d array. -/
def vecPySlice (v : Arr1 ℚ) (a b : ℤ) : Arr1 ℚ :=
  ⟨pyIdx v.len b - pyIdx v.len a, fun j => v.val (pyIdx v.len a + j)⟩

/-- Python slicing m[a:b] on a 2-d array: slices axis 0 (rows). -/
def matPySlice0 (m : Arr2 ℚ) (a b : ℤ) : Arr2 ℚ :=
  ⟨pyIdx m.rows b - pyIdx m.rows a, m.cols, fun i j => m.val (pyIdx m.rows a + i) j⟩

/-- Python slicing m[:, a:b] on a 2-d array: slices axis 1 (columns). -/
def matPySlice1 (m : Arr2 ℚ) (a b : ℤ) : Arr2 ℚ :=
  ⟨m.rows, pyIdx m.cols b - pyIdx m.cols a, fun i j => m.val i (pyIdx m.cols a + j)⟩

/-- paddle v.unsqueeze(0).expand([rows, v.len]): broadcast a 1-d tensor of
per-column values to a full matrix by copying it into every row. -/
def expand0 (v : Arr1 ℚ) (rows : ℕ) : Arr2 ℚ :=
  ⟨rows, v.len, fun _ j => v.val j⟩

/-- Elementwise difference maxs - mins of two 1-d arrays. -/
def vecSub (u v : Arr1 ℚ) : Arr1 ℚ := ⟨u.len, fun j => u.val j - v.val j⟩

/-- Elementwise difference of two 2-d arrays. -/
def matSub (A B : Arr2 ℚ) : Arr2 ℚ := ⟨A.rows, A.cols, fun i j => A.val i j - B.val i j⟩

/-
Channel statistics (source lines 197-216 and 284-302).  The source reduces
over every axis except quant_axis; this embedding instantiates the 2-d case,
where quant_axis = 1 reduces axis 0 (per-column statistics, the default used
by both channel-wise codecs) and any other axis value reduces axis 1.
-/

/-- cal_abs_min_max_channel (lines 197-216): per-channel plain max and min
(despite the abs in the name no absolute value is taken), each with the
exact-zero result replaced by the epsilon 1e-8.  Returns (maxs, mins),
matching the source return order (abs_max_values, abs_min_values). -/
def cal_abs_min_max_channel (inputs : Arr2 ℚ) (quant_axis : ℕ) : Arr1 ℚ × Arr1 ℚ :=
  if quant_axis = 1 then
    (⟨inputs.cols, fun j => epsIfZero (listMax ((List.range inputs.rows).map fun i => inputs.val i j))⟩,
     ⟨inputs.cols, fun j => epsIfZero (listMin ((List.range inputs.rows).map fun i => inputs.val i j))⟩)
  else
    (⟨inputs.rows, fun i => epsIfZero (listMax ((List.range inputs.cols).map fun j => inputs.val i j))⟩,
     ⟨inputs.rows, fun i => epsIfZero (listMin ((List.range inputs.cols).map fun j => inputs.val i j))⟩)

/-- cal_abs_max_channel (lines 284-302): per-channel max of absolute values,
with the exact-zero result replaced by the epsilon 1e-8. -/
def cal_abs_max_channel (inputs : Arr2 ℚ) (quant_axis : ℕ) : Arr1 ℚ :=
  if quant_axis = 1 then
    ⟨inputs.cols, fun j => epsIfZero (listMax ((List.range inputs.rows).map fun i => |inputs.val i j|))⟩
  else
    ⟨inputs.rows, fun i => epsIfZero (listMax ((List.range inputs.cols).map fun j => |inputs.val i j|))⟩

/-
Channel-wise symmetric codec qdq_weight (source lines 305-364) and
channel-wise asymmetric codec asymmetry_qdq_weight (source lines 219-281).
The scales / mins tensors of these codecs are 1-d (one entry per column of
x); the source branch len(scales.shape) == 0 (a 0-d scalar statistic) has no
counterpart in this 1-d embedding.
-/

/-- The scale sub-range selection of the qdq_weight dequantize branch
(lines 338-347, identical condition and slice in the use_pd branch at lines
351-362): when the last dimension of quant_x equals the last dimension of
scales the scales are used unsliced; otherwise axis 0 of scales is sliced
with python bounds tp_rank * len // tp_degree and (tp_rank + 1) * len //
tp_degree. -/
def qdq_scale_select (scales : Arr1 ℚ) (quant_x_last : ℕ) (tp_rank tp_degree : ℤ) : Arr1 ℚ :=
  if quant_x_last = scales.len then scales
  else
    vecPySlice scales (Int.fdiv (tp_rank * scales.len) tp_degree)
      (Int.fdiv ((tp_rank + 1) * scales.len) tp_degree)

/-- The scale sub-range selection of the asymmetry_qdq_weight dequantize
branch (lines 257-266, identical in the use_pd branch at lines 269-280). -/
def asym_scale_select (scales : Arr1 ℚ) (quant_x_last : ℕ) (tp_rank tp_degree : ℤ) : Arr1 ℚ :=
  if quant_x_last = scales.len then scales
  else
    vecPySlice scales (Int.fdiv (tp_rank * scales.len) tp_degree)
      (Int.fdiv ((tp_rank + 1) * scales.len) tp_degree)

/-- The mins sub-range selection of the asymmetry_qdq_weight dequantize
branch: the branch condition is evaluated on scales, while the slice bounds
use the length of mins (lines 266 and 280). -/
def asym_mins_select (mins scales : Arr1 ℚ) (quant_x_last : ℕ) (tp_rank tp_degree : ℤ) : Arr1 ℚ :=
  if quant_x_last = scales.len then mins
  else
    vecPySlice mins (Int.fdiv (tp_rank * mins.len) tp_degree)
      (Int.fdiv ((tp_rank + 1) * mins.len) tp_degree)

/-- Quantize branch of qdq_weight (lines 329-333):
np.clip(np.round(x / scales * bnt), -bnt - 1, bnt).astype(np.int8) with
bnt = 2^(quant_bit - 1) - 1, scales broadcast across rows; returns
(quant_x, scales). -/
def qdq_weight_quant (x : Arr2 ℚ) (quant_bit : ℕ) (scales : Arr1 ℚ) : Arr2 ℤ × Arr1 ℚ :=
  let bnt : ℤ := 2 ^ (quant_bit - 1) - 1
  (⟨x.rows, x.cols, fun i j =>
      toInt8 (clipZ (npRound (x.val i j / scales.val j * (bnt : ℚ))) (-bnt - 1) bnt)⟩,
   scales)

/-- Dequantize branch of qdq_weight (lines 334-364): quant_x / bnt * scales
with the scales sub-range of qdq_scale_select; the use_pd branch expands the
selected scales with unsqueeze(0).expand instead of numpy broadcasting.  The
final astype to float32 is the identity in this exact-arithmetic model. -/
def qdq_weight_dequant (quant_x : Arr2 ℚ) (quant_bit : ℕ) (scales : Arr1 ℚ)
    (tp_rank tp_degree : ℤ) (use_pd : Bool) : Arr2 ℚ × Arr1 ℚ :=
  let bnt : ℚ := 2 ^ (quant_bit - 1) - 1
  let sel := qdq_scale_select scales quant_x.cols tp_rank tp_degree
  if use_pd then
    (⟨quant_x.rows, quant_x.cols, fun i j =>
        quant_x.val i j / bnt * (expand0 sel quant_x.rows).val i j⟩, scales)
  else
    (⟨quant_x.rows, quant_x.cols, fun i j => quant_x.val i j / bnt * sel.val j⟩, scales)

/-- qdq_weight (lines 305-364).  When scales is not supplied it is computed
by cal_abs_max_channel with that function's own default axis 1; quant_axis
is accepted but never read by the source.  The quantize and dequantize
branches return different types, modelled by a sum. -/
def qdq_weight (x : Arr2 ℚ) (quant_bit : ℕ) (quant_axis : ℤ) (scales : Option (Arr1 ℚ))
    (dequant : Bool) (tp_rank tp_degree : ℤ) (use_pd : Bool) :
    (Arr2 ℤ × Arr1 ℚ) ⊕ (Arr2 ℚ × Arr1 ℚ) :=
  let s := scales.getD (cal_abs_max_channel x 1)
  if dequant then Sum.inr (qdq_weight_dequant x quant_bit s tp_rank tp_degree use_pd)
  else Sum.inl (qdq_weight_quant x quant_bit s)

/-- Dequantize branch of asymmetry_qdq_weight (lines 253-281):
(quant_x / bnt * scales) + mins with the sub-ranges of asym_scale_select and
asym_mins_select; the use_pd branch expands the selected scales with
unsqueeze(0).expand.  Returns (qdq_x, scales). -/
def asymmetry_qdq_weight_dequant (quant_x : Arr2 ℚ) (quant_bit : ℕ) (mins maxs : Arr1 ℚ)
    (tp_rank tp_degree : ℤ) (use_pd : Bool) : Arr2 ℚ × Arr1 ℚ :=
  let bnt : ℚ := 2 ^ quant_bit - 1
  let scales := vecSub maxs mins
  let selS := asym_scale_select scales quant_x.cols tp_rank tp_degree
  let selM := asym_mins_select mins scales quant_x.cols tp_rank tp_degree
  if use_pd then
    (⟨quant_x.rows, quant_x.cols, fun i j =>
        quant_x.val i j / bnt * (expand0 selS quant_x.rows).val i j + selM.val j⟩, scales)
  else
    (⟨quant_x.rows, quant_x.cols, fun i j =>
        quant_x.val i j / bnt * selS.val j + selM.val j⟩, scales)

/-
IEEE value domain.  Two quantize paths of the source divide by an unguarded
zero scale maxs - mins: the group-wise asymmetric path (lines 84-94), which
scrubs the resulting NaN afterwards with np.nan_to_num (line 93), and the
channel-wise asymmetric path (lines 245-252), which does not scrub and whose
zero-scale entries therefore reach astype(np.uint8) as NaN.  Both paths are
embedded over an explicit IEEE-style value domain NF with NaN and signed
infinities; all inputs and statistics are finite rationals.
-/

/-- IEEE-style float value: NaN, plus or minus infinity, or a finite value. -/
inductive NF where
  | nan : NF
  | pinf : NF
  | ninf : NF
  | fin : ℚ → NF
deriving DecidableEq

/-- IEEE division of two finite values: a zero divisor yields NaN for a zero
dividend and a signed infinity otherwise. -/
def nfDiv (a b : ℚ) : NF :=
  if b = 0 then (if a = 0 then NF.nan else if a > 0 then NF.pinf else NF.ninf)
  else NF.fin (a / b)

/-- IEEE multiplication of a value by a finite constant. -/
def nfMulConst (a : NF) (c : ℚ) : NF :=
  match a with
  | NF.nan => NF.nan
  | NF.pinf => if c > 0 then NF.pinf else if c < 0 then NF.ninf else NF.nan
  | NF.ninf => if c > 0 then NF.ninf else if c < 0 then NF.pinf else NF.nan
  | NF.fin q => NF.fin (q * c)

/-- np.round on an IEEE value: NaN and infinities pass through. -/
def nfRound (a : NF) : NF :=
  match a with
  | NF.fin q => NF.fin (npRound q : ℤ)
  | x => x

/-- np.clip on an IEEE value with finite bounds: NaN passes through,
infinities clamp to the bounds. -/
def nfClip (a : NF) (lo hi : ℚ) : NF :=
  match a with
  | NF.nan => NF.nan
  | NF.pinf => NF.fin hi
  | NF.ninf => NF.fin lo
  | NF.fin q => NF.fin (min (max q lo) hi)

/-- The largest finite float64 value, 1.7976931348623157e308, exactly. -/
def float64Max : ℚ := 2 ^ 1024 - 2 ^ 971

/-- np.nan_to_num with default arguments: NaN becomes 0.0 and the infinities
become the extreme finite float64 values. -/
def npNanToNum (a : NF) : NF :=
  match a with
  | NF.nan => NF.fin 0
  | NF.pinf => NF.fin float64Max
  | NF.ninf => NF.fin (-float64Max)
  | NF.fin q => NF.fin q

/-- Truncation toward zero, the C-style float to integer conversion used by
numpy astype on floats. -/
def truncQ (q : ℚ) : ℤ := Int.tdiv q.num q.den

/-- astype("uint8") on a float value: truncate, then wrap modulo 256.  The
conversion of NaN or an infinity is undefined behaviour in the source; it is
unreachable in the embedded pipeline because np.nan_to_num and np.clip run
first, and the junk value 0 stands in for it. -/
def castU8 (a : NF) : ℤ :=
  match a with
  | NF.fin q => truncQ q % 256
  | _ => 0

/-- astype("uint8") on a float value that may still be NaN or infinite (no
np.nan_to_num runs in the channel-wise asymmetric quantize path): the
conversion of a non-finite value is undefined behaviour in the source and is
modelled as none; a finite value truncates and wraps modulo 256. -/
def castU8Opt (a : NF) : Option ℤ :=
  match a with
  | NF.fin q => some (truncQ q % 256)
  | _ => none

/-- The channel-wise asymmetric quantized tensor before the uint8 cast (line
251): np.clip(np.round((x - mins) / scales * bnt), 0, bnt) over the IEEE
domain, with bnt = 2^quant_bit - 1 and scales = maxs - mins (line 248).  The
scale is not epsilon-guarded (cal_abs_min_max_channel guards maxs and mins
separately, never their difference), so a constant channel reaches a zero
scale here and the 0/0 divide produces NaN, which nothing scrubs in this
path. -/
def asymmetry_qdq_weight_quant_raw (x : Arr2 ℚ) (quant_bit : ℕ) (mins maxs : Arr1 ℚ) :
    Arr2 NF :=
  let bnt : ℚ := 2 ^ quant_bit - 1
  let scales := vecSub maxs mins
  ⟨x.rows, x.cols, fun i j =>
    nfClip (nfRound (nfMulConst (nfDiv (x.val i j - mins.val j) (scales.val j)) bnt)) 0 bnt⟩

/-- Quantize branch of asymmetry_qdq_weight (lines 249-252): the raw clipped
tensor cast by astype(np.uint8); returns (quant_x, mins, maxs).  A NaN entry
(from a constant channel) makes the cast undefined (none). -/
def asymmetry_qdq_weight_quant (x : Arr2 ℚ) (quant_bit : ℕ) (mins maxs : Arr1 ℚ) :
    Arr2 (Option ℤ) × Arr1 ℚ × Arr1 ℚ :=
  (⟨x.rows, x.cols, fun i j =>
      castU8Opt ((asymmetry_qdq_weight_quant_raw x quant_bit mins maxs).val i j)⟩,
   mins, maxs)

/-- asymmetry_qdq_weight (lines 219-281).  When mins is not supplied, the
pair (maxs, mins) is computed by cal_abs_min_max_channel with that function's
own default axis 1; quant_axis is accepted but never read.  Supplying mins
without maxs is a caller error in the source (a None would flow into the
arithmetic); the junk empty array stands in for that impossible case. -/
def asymmetry_qdq_weight (x : Arr2 ℚ) (quant_bit : ℕ) (quant_axis : ℤ)
    (mins maxs : Option (Arr1 ℚ)) (dequant : Bool) (tp_rank tp_degree : ℤ) (use_pd : Bool) :
    (Arr2 (Option ℤ) × Arr1 ℚ × Arr1 ℚ) ⊕ (Arr2 ℚ × Arr1 ℚ) :=
  let mm := match mins with
    | none => cal_abs_min_max_channel x 1
    | some m => (maxs.getD ⟨0, fun _ => 0⟩, m)
  if dequant then
    Sum.inr (asymmetry_qdq_weight_dequant x quant_bit mm.2 mm.1 tp_rank tp_degree use_pd)
  else Sum.inl (asymmetry_qdq_weight_quant x quant_bit mm.2 mm.1)

/-- Per-group per-column max (reshape to [rows / group_size, group_size,
cols] followed by np.max over axis 1, source lines 76 and 85): entry (g, c)
reduces inputs rows g * group_size .. g * group_size + group_size - 1 at
column c. -/
def gw_group_maxs (inputs : Arr2 ℚ) (group_size : ℕ) : Arr2 ℚ :=
  ⟨inputs.rows / group_size, inputs.cols, fun g c =>
    listMax ((List.range group_size).map fun r => inputs.val (g * group_size + r) c)⟩

/-- Per-group per-column min (np.min over axis 1 of the reshape, line 86). -/
def gw_group_mins (inputs : Arr2 ℚ) (group_size : ℕ) : Arr2 ℚ :=
  ⟨inputs.rows / group_size, inputs.cols, fun g c =>
    listMin ((List.range group_size).map fun r => inputs.val (g * group_size + r) c)⟩

/-- The group-wise asymmetric scales maxs - mins (line 87), with no epsilon
guard: an all-equal group yields an exactly zero scale. -/
def gw_asym_scales (inputs : Arr2 ℚ) (group_size : ℕ) : Arr2 ℚ :=
  matSub (gw_group_maxs inputs group_size) (gw_group_mins inputs group_size)

/-- np.repeat(m, repeats = k, axis = 0): every row is repeated k consecutive
times, so output row i is input row i / k (lines 80, 89-90). -/
def npRepeat0 (m : Arr2 ℚ) (k : ℕ) : Arr2 ℚ :=
  ⟨m.rows * k, m.cols, fun i j => m.val (i / k) j⟩

/-- paddle.repeat_interleave(m, k, 0) (lines 100, 133-134): repeats every
row k consecutive times, exactly like np.repeat on axis 0. -/
def pdRepeatInterleave0 (m : Arr2 ℚ) (k : ℕ) : Arr2 ℚ :=
  ⟨m.rows * k, m.cols, fun i j => m.val (i / k) j⟩

/-- The group-wise asymmetric quantized tensor before the NaN scrub (line
92): np.clip(np.round((inputs - new_mins) / new_scales * qmax), 0, qmax)
over the IEEE domain, with qmax = 2^quant_bits - 1 and the broadcast
statistics new_scales and new_mins. -/
def group_wise_quant_asym_raw (inputs : Arr2 ℚ) (quant_bits group_size : ℕ) : Arr2 NF :=
  let qmax : ℚ := 2 ^ quant_bits - 1
  let new_scales := npRepeat0 (gw_asym_scales inputs group_size) group_size
  let new_mins := npRepeat0 (gw_group_mins inputs group_size) group_size
  ⟨inputs.rows, inputs.cols, fun i c =>
    nfClip (nfRound (nfMulConst
      (nfDiv (inputs.val i c - new_mins.val i c) (new_scales.val i c)) qmax)) 0 qmax⟩

/-- The group-wise asymmetric quantize path (lines 84-94): the raw clipped
tensor is scrubbed by np.nan_to_num and cast to uint8; returns
(quant_tensor, mins, maxs). -/
def group_wise_quant_asym (inputs : Arr2 ℚ) (quant_bits group_size : ℕ) :
    Arr2 ℤ × Arr2 ℚ × Arr2 ℚ :=
  let raw := group_wise_quant_asym_raw inputs quant_bits group_size
  (⟨inputs.rows, inputs.cols, fun i c => castU8 (npNanToNum (raw.val i c))⟩,
   gw_group_mins inputs group_size, gw_group_maxs inputs group_size)

/-- The scale sub-range selection of the group-wise symmetric dequantize path
(lines 104-128), applied to the broadcast (row-repeated) scales: tp_rank = -1
uses them unsliced; when the last dimension of inputs equals the last
dimension of the scales, axis 0 is sliced into tp_degree python blocks and
block tp_rank used; otherwise the last axis is sliced the same way.  The 0-d
scalar scales branch of the source condition has no counterpart in this 2-d
embedding. -/
def gw_sym_scale_select (new_scales : Arr2 ℚ) (inputs_last : ℕ) (tp_rank tp_degree : ℤ) :
    Arr2 ℚ :=
  if tp_rank = -1 then new_scales
  else if inputs_last = new_scales.cols then
    matPySlice0 new_scales (Int.fdiv (tp_rank * new_scales.rows) tp_degree)
      (Int.fdiv ((tp_rank + 1) * new_scales.rows) tp_degree)
  else
    matPySlice1 new_scales (Int.fdiv (tp_rank * new_scales.cols) tp_degree)
      (Int.fdiv ((tp_rank + 1) * new_scales.cols) tp_degree)

/-- The scale sub-range selection of the group-wise asymmetric dequantize
path (lines 139-160), identical to the symmetric one. -/
def gw_asym_scale_select (new_scales : Arr2 ℚ) (inputs_last : ℕ) (tp_rank tp_degree : ℤ) :
    Arr2 ℚ :=
  if tp_rank = -1 then new_scales
  else if inputs_last = new_scales.cols then
    matPySlice0 new_scales (Int.fdiv (tp_rank * new_scales.rows) tp_degree)
      (Int.fdiv ((tp_rank + 1) * new_scales.rows) tp_degree)
  else
    matPySlice1 new_scales (Int.fdiv (tp_rank * new_scales.cols) tp_degree)
      (Int.fdiv ((tp_rank + 1) * new_scales.cols) tp_degree)

/-- The mins sub-range selection of the group-wise asymmetric dequantize path
(lines 149 and 158-160): the branch condition is evaluated on new_scales,
the slice bounds on the shape of new_mins. -/
def gw_asym_mins_select (new_scales new_mins : Arr2 ℚ) (inputs_last : ℕ)
    (tp_rank tp_degree : ℤ) : Arr2 ℚ :=
  if tp_rank = -1 then new_mins
  else if inputs_last = new_scales.cols then
    matPySlice0 new_mins (Int.fdiv (tp_rank * new_mins.rows) tp_degree)
      (Int.fdiv ((tp_rank + 1) * new_mins.rows) tp_degree)
  else
    matPySlice1 new_mins (Int.fdiv (tp_rank * new_mins.cols) tp_degree)
      (Int.fdiv ((tp_rank + 1) * new_mins.cols) tp_degree)

/-- The group-wise symmetric dequantize path (lines 96-129): the mins
argument carries the scales (line 97), which are row-repeated (by paddle or
numpy according to use_pd), sub-range selected, and applied as
inputs * scales / bnt with bnt = 2^(quant_bits - 1) - 1. -/
def group_wise_dequant_sym (inputs mins : Arr2 ℚ) (quant_bits group_size : ℕ)
    (tp_rank tp_degree : ℤ) (use_pd : Bool) : Arr2 ℚ :=
  let scales := mins
  let bnt : ℚ := 2 ^ (quant_bits - 1) - 1
  let new_scales :=
    if use_pd then pdRepeatInterleave0 scales group_size else npRepeat0 scales group_size
  let sel := gw_sym_scale_select new_scales inputs.cols tp_rank tp_degree
  ⟨inputs.rows, inputs.cols, fun i j => inputs.val i j * sel.val i j / bnt⟩

/-- The group-wise asymmetric dequantize path (lines 131-161): scales =
maxs - mins, scales and mins row-repeated (by paddle or numpy according to
use_pd), sub-range selected, and applied as inputs / qmax * scales + mins
with qmax = 2^quant_bits - 1. -/
def group_wise_dequant_asym (inputs mins maxs : Arr2 ℚ) (quant_bits group_size : ℕ)
    (tp_rank tp_degree : ℤ) (use_pd : Bool) : Arr2 ℚ :=
  let qmax : ℚ := 2 ^ quant_bits - 1
  let scales := matSub maxs mins
  let new_scales :=
    if use_pd then pdRepeatInterleave0 scales group_size else npRepeat0 scales group_size
  let new_mins :=
    if use_pd then pdRepeatInterleave0 mins group_size else npRepeat0 mins group_size
  let selS := gw_asym_scale_select new_scales inputs.cols tp_rank tp_degree
  let selM := gw_asym_mins_select new_scales new_mins inputs.cols tp_rank tp_degree
  ⟨inputs.rows, inputs.cols, fun i j => inputs.val i j / qmax * selS.val i j + selM.val i j⟩

/-- Concrete 2 x 1 input (values 1 and 3) for evaluating the asymmetric
channel-wise quantizer. -/
def c6X : Arr2 ℚ := ⟨2, 1, fun i _ => 1 + 2 * (i : ℚ)⟩

/-- Concrete constant 1 x 1 input (value 5): a channel whose scale
maxs - mins is exactly zero. -/
def c6cX : Arr2 ℚ := ⟨1, 1, fun _ _ => 5⟩

/-- Concrete all-zero 2 x 1 input for the statistics epsilon guard. -/
def c8X : Arr2 ℚ := ⟨2, 1, fun _ _ => 0⟩

/-- Concrete constant 2 x 1 input (all entries 5): one group of size 2 whose
elements are all equal. -/
def c7X : Arr2 ℚ := ⟨2, 1, fun _ _ => 5⟩

/-- Concrete 1-d scale tensor [1, 2] (channel-wise codecs). -/
def c2S : Arr1 ℚ := ⟨2, fun j => (j : ℚ) + 1⟩

/-- Concrete 2 x 1 scale tensor [[1], [2]] (group-wise codecs). -/
def c2M : Arr2 ℚ := ⟨2, 1, fun i _ => (i : ℚ) + 1⟩

/-- Concrete 1-d scale tensor [1, 2] for the rank -1 column-parallel case. -/
def c4S : Arr1 ℚ := ⟨2, fun j => (j : ℚ) + 1⟩

theorem vecEq_refl {α : Type} (u : Arr1 α) : VecEq u u :=
  ⟨rfl, fun _ _ => rfl⟩

theorem matEq_refl {α : Type} (A : Arr2 α) : MatEq A A :=
  ⟨rfl, rfl, fun _ _ _ _ => rfl⟩

theorem toInt8_eq_of_bounds (n : ℤ) (h1 : -128 ≤ n) (h2 : n ≤ 127) : toInt8 n = n := by
  unfold toInt8; split <;> omega

theorem toUInt8_eq_of_bounds (n : ℤ) (h1 : 0 ≤ n) (h2 : n ≤ 255) : toUInt8 n = n := by
  unfold toUInt8; omega

/-- C1: the spec claims split_int8 (merge_int4 x y) = (x, y) for all x, y in
[-8, 7].  The code violates this for every negative y: the sign-recovery
subtraction in split_int8 is applied to the high nibble only, so the low
component comes back as y % 16 in [0, 15].  Concretely,
split_int8 (merge_int4 0 (-1)) evaluates to (0, 15), not (0, -1), and
split_int8 (merge_int4 3 (-2)) evaluates to (3, 14), not (3, -2).
The high nibble and nonnegative low nibbles do round-trip, as the last
conjunct illustrates. -/
theorem split_merge_low_nibble_bug :
    split_int8 (merge_int4 0 (-1)) = (0, 15) ∧
    split_int8 (merge_int4 3 (-2)) = (3, 14) ∧
    split_int8 (merge_int4 0 (-1)) ≠ (0, -1) ∧
    split_int8 (merge_int4 (-5) 6) = (-5, 6) := by
  refine ⟨by decide, by decide, by decide, by decide⟩

/-- C10: for every int8 input value, the second (low-nibble) component
returned by split_int8 is the raw masked value final % 16 (final & 0x0F in
the source): it lies in [0, 15] and is never negative, because the
sign-recovery subtraction is applied only to the high-nibble component. -/
theorem split_int8_low_nibble_range : ∀ v : ℤ, -128 ≤ v → v ≤ 127 →
    0 ≤ (split_int8 v).2 ∧ (split_int8 v).2 ≤ 15 ∧ (split_int8 v).2 = v % 16 := by
  intro v h1 h2
  have hv : (split_int8 v).2 = v % 16 := rfl
  refine ⟨?_, ?_, hv⟩ <;> rw [hv] <;> omega

/-- Witness for C10 at the concrete int8 byte -14 (low nibble 2). -/
theorem split_int8_low_nibble_range_witness :
    (split_int8 (-14)).2 = 2 ∧
      (0 ≤ (split_int8 (-14)).2 ∧ (split_int8 (-14)).2 ≤ 15 ∧
        (split_int8 (-14)).2 = (-14 : ℤ) % 16) :=
  ⟨by decide, split_int8_low_nibble_range (-14) (by decide) (by decide)⟩

theorem clipZ_bounds (v lo hi : ℤ) (h : lo ≤ hi) :
    lo ≤ clipZ v lo hi ∧ clipZ v lo hi ≤ hi :=
  ⟨le_min (le_max_right v lo) h, min_le_right _ hi⟩

theorem epsIfZero_ne_zero (v : ℚ) : epsIfZero v ≠ 0 := by
  unfold epsIfZero npEps
  split
  · norm_num
  · assumption

theorem foldl_max_all_eq : ∀ (l : List ℚ) (a : ℚ), (∀ b ∈ l, b = a) → l.foldl max a = a := by
  intro l
  induction l with
  | nil => intro a _; rfl
  | cons x xs ih =>
    intro a h
    have hx : x = a := h x (List.mem_cons_self x xs)
    rw [List.foldl_cons, hx, max_self]
    exact ih a fun b hb => h b (List.mem_cons_of_mem _ hb)

theorem foldl_min_all_eq : ∀ (l : List ℚ) (a : ℚ), (∀ b ∈ l, b = a) → l.foldl min a = a := by
  intro l
  induction l with
  | nil => intro a _; rfl
  | cons x xs ih =>
    intro a h
    have hx : x = a := h x (List.mem_cons_self x xs)
    rw [List.foldl_cons, hx, min_self]
    exact ih a fun b hb => h b (List.mem_cons_of_mem _ hb)

theorem listMax_all_eq (l : List ℚ) (v : ℚ) (hne : l ≠ []) (h : ∀ b ∈ l, b = v) :
    listMax l = v := by
  match l with
  | [] => exact absurd rfl hne
  | a :: as =>
    have ha : a = v := h a (List.mem_cons_self a as)
    have hfold : as.foldl max a = a := by
      apply foldl_max_all_eq
      intro b hb
      rw [h b (List.mem_cons_of_mem _ hb), ha]
    rw [listMax, hfold, ha]

theorem listMin_all_eq (l : List ℚ) (v : ℚ) (hne : l ≠ []) (h : ∀ b ∈ l, b = v) :
    listMin l = v := by
  match l with
  | [] => exact absurd rfl hne
  | a :: as =>
    have ha : a = v := h a (List.mem_cons_self a as)
    have hfold : as.foldl min a = a := by
      apply foldl_min_all_eq
      intro b hb
      rw [h b (List.mem_cons_of_mem _ hb), ha]
    rw [listMin, hfold, ha]

/-- C9: for every input and every other parameter held fixed, the results of
qdq_weight and asymmetry_qdq_weight are independent of the quant_axis
argument: the parameter is accepted but never read, and the statistics are
always computed with the statistics functions own default axis 1. -/
theorem quant_axis_unused :
    ∀ (x : Arr2 ℚ) (quant_bit : ℕ) (a a' : ℤ) (scales mins maxs : Option (Arr1 ℚ))
      (dequant : Bool) (tp_rank tp_degree : ℤ) (use_pd : Bool),
      qdq_weight x quant_bit a scales dequant tp_rank tp_degree use_pd =
        qdq_weight x quant_bit a' scales dequant tp_rank tp_degree use_pd ∧
      asymmetry_qdq_weight x quant_bit a mins maxs dequant tp_rank tp_degree use_pd =
        asymmetry_qdq_weight x quant_bit a' mins maxs dequant tp_rank tp_degree use_pd :=
  fun _ _ _ _ _ _ _ _ _ _ _ => ⟨rfl, rfl⟩

/-- C3: for every input tensor and identical parameters, the numpy
implementation (use_pd = false) and the paddle implementation (use_pd =
true) of the dequantize paths of qdq_weight, asymmetry_qdq_weight and
group_wise_quant_dequant return identical output values: the flag only
selects between np.repeat and paddle.repeat_interleave (which repeat rows
identically) and between numpy broadcasting and an explicit
unsqueeze(0).expand (which read the same scale entries). -/
theorem use_pd_paths_agree :
    ∀ (q sc mn mx : Arr2 ℚ) (scv mnv mxv : Arr1 ℚ) (quant_bit group_size : ℕ)
      (oscales omins omaxs : Option (Arr1 ℚ)) (quant_axis tp_rank tp_degree : ℤ),
      group_wise_dequant_sym q sc quant_bit group_size tp_rank tp_degree true =
        group_wise_dequant_sym q sc quant_bit group_size tp_rank tp_degree false ∧
      group_wise_dequant_asym q mn mx quant_bit group_size tp_rank tp_degree true =
        group_wise_dequant_asym q mn mx quant_bit group_size tp_rank tp_degree false ∧
      qdq_weight_dequant q quant_bit scv tp_rank tp_degree true =
        qdq_weight_dequant q quant_bit scv tp_rank tp_degree false ∧
      asymmetry_qdq_weight_dequant q quant_bit mnv mxv tp_rank tp_degree true =
        asymmetry_qdq_weight_dequant q quant_bit mnv mxv tp_rank tp_degree false ∧
      qdq_weight q quant_bit quant_axis oscales true tp_rank tp_degree true =
        qdq_weight q quant_bit quant_axis oscales true tp_rank tp_degree false ∧
      asymmetry_qdq_weight q quant_bit quant_axis omins omaxs true tp_rank tp_degree true =
        asymmetry_qdq_weight q quant_bit quant_axis omins omaxs true tp_rank tp_degree false :=
  fun _ _ _ _ _ _ _ _ _ _ _ _ _ _ _ => ⟨rfl, rfl, rfl, rfl, rfl, rfl⟩

theorem npRound_intCast (n : ℤ) : npRound (n : ℚ) = n := by
  unfold npRound
  rw [Int.floor_intCast]
  norm_num

/-- C5: for every input and quant_bit b in [1, 8], the symmetric channel-wise
quantize path (qdq_weight with dequant = false, scales computed) returns
elementwise round(x / scale * bnt) clipped to [-bnt - 1, bnt] with
bnt = 2^(b - 1) - 1 and cast to int8 (the cast is the identity on that
range), together with the computed scales; consequently every output element
lies in [-(2^(b - 1)), 2^(b - 1) - 1]. -/
theorem qdq_weight_quant_spec :
    ∀ (x : Arr2 ℚ) (quant_bit : ℕ) (a tp_rank tp_degree : ℤ) (use_pd : Bool),
      1 ≤ quant_bit → quant_bit ≤ 8 →
      qdq_weight x quant_bit a none false tp_rank tp_degree use_pd =
        Sum.inl (qdq_weight_quant x quant_bit (cal_abs_max_channel x 1)) ∧
      (∀ i j, (qdq_weight_quant x quant_bit (cal_abs_max_channel x 1)).1.val i j =
          clipZ (npRound (x.val i j / (cal_abs_max_channel x 1).val j *
              ((2 ^ (quant_bit - 1) - 1 : ℤ) : ℚ)))
            (-(2 ^ (quant_bit - 1) - 1 : ℤ) - 1) (2 ^ (quant_bit - 1) - 1)) ∧
      (∀ i j, -(2 ^ (quant_bit - 1) : ℤ) ≤
            (qdq_weight_quant x quant_bit (cal_abs_max_channel x 1)).1.val i j ∧
          (qdq_weight_quant x quant_bit (cal_abs_max_channel x 1)).1.val i j ≤
            2 ^ (quant_bit - 1) - 1) ∧
      (qdq_weight_quant x quant_bit (cal_abs_max_channel x 1)).2 = cal_abs_max_channel x 1 := by
  intro x b a tp_rank tp_degree use_pd h1 h8
  have hpow1 : (1 : ℤ) ≤ 2 ^ (b - 1) := one_le_pow₀ (by norm_num)
  have hpow128 : (2 : ℤ) ^ (b - 1) ≤ 2 ^ 7 :=
    pow_le_pow_right₀ (by norm_num) (by omega)
  have hval : ∀ i j, (qdq_weight_quant x b (cal_abs_max_channel x 1)).1.val i j =
      toInt8 (clipZ (npRound (x.val i j / (cal_abs_max_channel x 1).val j *
          ((2 ^ (b - 1) - 1 : ℤ) : ℚ)))
        (-(2 ^ (b - 1) - 1 : ℤ) - 1) (2 ^ (b - 1) - 1)) := fun i j => rfl
  have hbounds : ∀ i j,
      -(2 ^ (b - 1) : ℤ) ≤ (qdq_weight_quant x b (cal_abs_max_channel x 1)).1.val i j ∧
        (qdq_weight_quant x b (cal_abs_max_channel x 1)).1.val i j ≤ 2 ^ (b - 1) - 1 := by
    intro i j
    have hc := clipZ_bounds (npRound (x.val i j / (cal_abs_max_channel x 1).val j *
        ((2 ^ (b - 1) - 1 : ℤ) : ℚ))) (-(2 ^ (b - 1) - 1 : ℤ) - 1) (2 ^ (b - 1) - 1) (by omega)
    rw [hval i j, toInt8_eq_of_bounds _ (by omega) (by omega)]
    omega
  refine ⟨rfl, ?_, hbounds, rfl⟩
  intro i j
  rw [hval i j]
  exact toInt8_eq_of_bounds _
    (by
      have hc := clipZ_bounds (npRound (x.val i j / (cal_abs_max_channel x 1).val j *
          ((2 ^ (b - 1) - 1 : ℤ) : ℚ))) (-(2 ^ (b - 1) - 1 : ℤ) - 1) (2 ^ (b - 1) - 1) (by omega)
      omega)
    (by
      have hc := clipZ_bounds (npRound (x.val i j / (cal_abs_max_channel x 1).val j *
          ((2 ^ (b - 1) - 1 : ℤ) : ℚ))) (-(2 ^ (b - 1) - 1 : ℤ) - 1) (2 ^ (b - 1) - 1) (by omega)
      omega)

/-- Witness for C5: a 1 x 1 tensor with value 3 at quant_bit 8 quantizes to
127 (scale 3, round(3 / 3 * 127) = 127), inside [-(2^7), 2^7 - 1]. -/
theorem qdq_weight_quant_spec_witness :
    qdq_weight ⟨1, 1, fun _ _ => 3⟩ 8 0 none false (-1) 1 false =
      Sum.inl (qdq_weight_quant ⟨1, 1, fun _ _ => 3⟩ 8
        (cal_abs_max_channel ⟨1, 1, fun _ _ => 3⟩ 1)) ∧
    -(2 ^ 7 : ℤ) ≤ (qdq_weight_quant ⟨1, 1, fun _ _ => 3⟩ 8
        (cal_abs_max_channel ⟨1, 1, fun _ _ => 3⟩ 1)).1.val 0 0 ∧
    (qdq_weight_quant ⟨1, 1, fun _ _ => 3⟩ 8
        (cal_abs_max_channel ⟨1, 1, fun _ _ => 3⟩ 1)).1.val 0 0 ≤ 2 ^ 7 - 1 ∧
    (qdq_weight_quant ⟨1, 1, fun _ _ => 3⟩ 8
        (cal_abs_max_channel ⟨1, 1, fun _ _ => 3⟩ 1)).1.val 0 0 = 127 := by
  have h := qdq_weight_quant_spec ⟨1, 1, fun _ _ => 3⟩ 8 0 (-1) 1 false
    (by norm_num) (by norm_num)
  have hb := h.2.2.1 0 0
  refine ⟨h.1, hb.1, hb.2, ?_⟩
  have hformula := h.2.1 0 0
  have hx : (⟨1, 1, fun _ _ => 3⟩ : Arr2 ℚ).val 0 0 = 3 := rfl
  have hs : (cal_abs_max_channel ⟨1, 1, fun _ _ => 3⟩ 1).val 0 = 3 := by
    show epsIfZero (listMax ((List.range 1).map fun _ => |(3 : ℚ)|)) = 3
    have hr : List.range 1 = [0] := rfl
    rw [hr]
    norm_num [listMax, epsIfZero]
  rw [hformula, hx, hs]
  have harg : (3 : ℚ) / 3 * ((2 ^ (8 - 1) - 1 : ℤ) : ℚ) = ((127 : ℤ) : ℚ) := by norm_num
  rw [harg, npRound_intCast]
  decide

theorem truncQ_intCast (z : ℤ) : truncQ ((z : ℤ) : ℚ) = z := by
  unfold truncQ
  rw [Rat.num_intCast, Rat.den_intCast]
  simp

theorem truncQ_eq_floor (q : ℚ) (h : 0 ≤ q) : truncQ q = ⌊q⌋ := by
  unfold truncQ
  rw [Rat.floor_def]
  exact Int.tdiv_eq_ediv (Rat.num_nonneg.2 h) (Int.natCast_nonneg _)

theorem truncQ_mod_range (c : ℚ) (bz : ℤ) (h0 : 0 ≤ c) (hc : c ≤ (bz : ℚ))
    (h255 : bz ≤ 255) (n : ℤ) (hn : truncQ c % 256 = n) : 0 ≤ n ∧ n ≤ bz := by
  have hf : truncQ c = ⌊c⌋ := truncQ_eq_floor c h0
  have h1 : 0 ≤ ⌊c⌋ := Int.floor_nonneg.2 h0
  have h2 : ⌊c⌋ ≤ bz := by
    have hm := Int.floor_mono hc
    rwa [Int.floor_intCast] at hm
  omega

theorem castU8Opt_clip_range (A : NF) (b : ℕ) (h8 : b ≤ 8) (n : ℤ) :
    castU8Opt (nfClip A 0 ((2 : ℚ) ^ b - 1)) = some n → 0 ≤ n ∧ n ≤ 2 ^ b - 1 := by
  have hpow1 : (1 : ℤ) ≤ 2 ^ b := one_le_pow₀ (by norm_num)
  have hpow256 : (2 : ℤ) ^ b ≤ 2 ^ 8 := pow_le_pow_right₀ (by norm_num) h8
  have hq1 : (1 : ℚ) ≤ 2 ^ b := one_le_pow₀ (by norm_num)
  have hbq : ((2 ^ b - 1 : ℤ) : ℚ) = (2 : ℚ) ^ b - 1 := by push_cast; ring
  cases A with
  | nan =>
    intro h
    exact Option.noConfusion (h : (none : Option ℤ) = some n)
  | pinf =>
    intro h
    have hn := Option.some.inj (h : some (truncQ ((2 : ℚ) ^ b - 1) % 256) = some n)
    exact truncQ_mod_range _ (2 ^ b - 1) (by linarith) (le_of_eq hbq.symm) (by omega) n hn
  | ninf =>
    intro h
    have hn := Option.some.inj (h : some (truncQ (0 : ℚ) % 256) = some n)
    have h0 : truncQ ((0 : ℚ)) = 0 := by
      have h00 := truncQ_intCast 0
      simpa using h00
    constructor <;> omega
  | fin q =>
    intro h
    have hn := Option.some.inj
      (h : some (truncQ (min (max q 0) ((2 : ℚ) ^ b - 1)) % 256) = some n)
    have h0 : (0 : ℚ) ≤ min (max q 0) ((2 : ℚ) ^ b - 1) :=
      le_min (le_max_right q 0) (by linarith)
    have hcle : min (max q 0) ((2 : ℚ) ^ b - 1) ≤ ((2 ^ b - 1 : ℤ) : ℚ) := by
      rw [hbq]
      exact min_le_right _ _
    exact truncQ_mod_range _ (2 ^ b - 1) h0 hcle (by omega) n hn

/-- C6 (amended): for quant_bit at most 8, the asymmetric channel-wise
quantize path computes scale = maxs - mins and, at every entry whose channel
scale is nonzero, returns round((x - mins) / scale * qmax) clipped to
[0, qmax] with qmax = 2^quant_bit - 1 and cast to uint8; every defined
output element lies in [0, 2^quant_bit - 1]; and the path returns
(quantized, mins, maxs) with the computed statistics.  The original claim
does not hold at every entry: a constant channel has scale exactly 0 (the
statistics epsilon guard protects maxs and mins separately, never their
difference), the divide produces NaN, and the uint8 cast of NaN is
undefined (none). -/
theorem asymmetry_qdq_weight_quant_spec :
    ∀ (x : Arr2 ℚ) (quant_bit : ℕ) (a tp_rank tp_degree : ℤ) (use_pd : Bool),
      quant_bit ≤ 8 →
      asymmetry_qdq_weight x quant_bit a none none false tp_rank tp_degree use_pd =
        Sum.inl (asymmetry_qdq_weight_quant x quant_bit
          (cal_abs_min_max_channel x 1).2 (cal_abs_min_max_channel x 1).1) ∧
      (∀ (mins maxs : Arr1 ℚ) (i j : ℕ), maxs.val j - mins.val j ≠ 0 →
        (asymmetry_qdq_weight_quant x quant_bit mins maxs).1.val i j =
          some (clipZ (npRound ((x.val i j - mins.val j) / (maxs.val j - mins.val j) *
            ((2 : ℚ) ^ quant_bit - 1))) 0 (2 ^ quant_bit - 1))) ∧
      (∀ (mins maxs : Arr1 ℚ) (i j : ℕ) (n : ℤ),
        (asymmetry_qdq_weight_quant x quant_bit mins maxs).1.val i j = some n →
        0 ≤ n ∧ n ≤ 2 ^ quant_bit - 1) ∧
      (∀ (mins maxs : Arr1 ℚ) (i j : ℕ), maxs.val j = mins.val j → x.val i j = mins.val j →
        (asymmetry_qdq_weight_quant_raw x quant_bit mins maxs).val i j = NF.nan ∧
        (asymmetry_qdq_weight_quant x quant_bit mins maxs).1.val i j = none) ∧
      (asymmetry_qdq_weight_quant x quant_bit
          (cal_abs_min_max_channel x 1).2 (cal_abs_min_max_channel x 1).1).2.1 =
        (cal_abs_min_max_channel x 1).2 ∧
      (asymmetry_qdq_weight_quant x quant_bit
          (cal_abs_min_max_channel x 1).2 (cal_abs_min_max_channel x 1).1).2.2 =
        (cal_abs_min_max_channel x 1).1 := by
  intro x b a tp_rank tp_degree use_pd h8
  have hpow1 : (1 : ℤ) ≤ 2 ^ b := one_le_pow₀ (by norm_num)
  have hpow256 : (2 : ℤ) ^ b ≤ 2 ^ 8 := pow_le_pow_right₀ (by norm_num) h8
  refine ⟨rfl, ?_, ?_, ?_, rfl, rfl⟩
  · intro mins maxs i j hs
    have hdiv : nfDiv (x.val i j - mins.val j) (maxs.val j - mins.val j) =
        NF.fin ((x.val i j - mins.val j) / (maxs.val j - mins.val j)) := by
      unfold nfDiv
      rw [if_neg hs]
    show castU8Opt (nfClip (nfRound (nfMulConst (nfDiv (x.val i j - mins.val j)
        (maxs.val j - mins.val j)) ((2 : ℚ) ^ b - 1))) 0 ((2 : ℚ) ^ b - 1)) =
      some (clipZ (npRound ((x.val i j - mins.val j) / (maxs.val j - mins.val j) *
        ((2 : ℚ) ^ b - 1))) 0 (2 ^ b - 1))
    rw [hdiv]
    show some (truncQ (min (max ((npRound ((x.val i j - mins.val j) /
        (maxs.val j - mins.val j) * ((2 : ℚ) ^ b - 1)) : ℤ) : ℚ) 0)
        ((2 : ℚ) ^ b - 1)) % 256) =
      some (clipZ (npRound ((x.val i j - mins.val j) / (maxs.val j - mins.val j) *
        ((2 : ℚ) ^ b - 1))) 0 (2 ^ b - 1))
    have hcast : min (max ((npRound ((x.val i j - mins.val j) /
        (maxs.val j - mins.val j) * ((2 : ℚ) ^ b - 1)) : ℤ) : ℚ) 0) ((2 : ℚ) ^ b - 1) =
        ((clipZ (npRound ((x.val i j - mins.val j) / (maxs.val j - mins.val j) *
          ((2 : ℚ) ^ b - 1))) 0 (2 ^ b - 1) : ℤ) : ℚ) := by
      unfold clipZ
      push_cast
      ring_nf
    rw [hcast, truncQ_intCast]
    have hcb := clipZ_bounds (npRound ((x.val i j - mins.val j) /
        (maxs.val j - mins.val j) * ((2 : ℚ) ^ b - 1))) 0 (2 ^ b - 1) (by omega)
    have hm : clipZ (npRound ((x.val i j - mins.val j) /
        (maxs.val j - mins.val j) * ((2 : ℚ) ^ b - 1))) 0 (2 ^ b - 1) % 256 =
        clipZ (npRound ((x.val i j - mins.val j) /
          (maxs.val j - mins.val j) * ((2 : ℚ) ^ b - 1))) 0 (2 ^ b - 1) := by omega
    rw [hm]
  · intro mins maxs i j n hn
    exact castU8Opt_clip_range (nfRound (nfMulConst (nfDiv (x.val i j - mins.val j)
      ((vecSub maxs mins).val j)) ((2 : ℚ) ^ b - 1))) b h8 n hn
  · intro mins maxs i j hmm hx
    have hraw : (asymmetry_qdq_weight_quant_raw x b mins maxs).val i j = NF.nan := by
      show nfClip (nfRound (nfMulConst (nfDiv (x.val i j - mins.val j)
          (maxs.val j - mins.val j)) ((2 : ℚ) ^ b - 1))) 0 ((2 : ℚ) ^ b - 1) = NF.nan
      rw [hx, hmm]
      simp only [sub_self]
      simp [nfDiv, nfMulConst, nfRound, nfClip]
    refine ⟨hraw, ?_⟩
    show castU8Opt ((asymmetry_qdq_weight_quant_raw x b mins maxs).val i j) = none
    rw [hraw]
    rfl

theorem c6X_val0 : c6X.val 0 0 = 1 := by
  show 1 + 2 * ((0 : ℕ) : ℚ) = 1
  norm_num

theorem c6X_val1 : c6X.val 1 0 = 3 := by
  show 1 + 2 * ((1 : ℕ) : ℚ) = 3
  norm_num

theorem c6X_maxs : (cal_abs_min_max_channel c6X 1).1.val 0 = 3 := by
  show epsIfZero (listMax ((List.range 2).map fun i => c6X.val i 0)) = 3
  have hr : List.range 2 = [0, 1] := rfl
  rw [hr]
  simp only [List.map_cons, List.map_nil, c6X_val0, c6X_val1]
  norm_num [listMax, epsIfZero, max_def]

theorem c6X_mins : (cal_abs_min_max_channel c6X 1).2.val 0 = 1 := by
  show epsIfZero (listMin ((List.range 2).map fun i => c6X.val i 0)) = 1
  have hr : List.range 2 = [0, 1] := rfl
  rw [hr]
  simp only [List.map_cons, List.map_nil, c6X_val0, c6X_val1]
  norm_num [listMin, epsIfZero, min_def]

theorem c6cX_val : c6cX.val 0 0 = 5 := rfl

theorem c6cX_maxs : (cal_abs_min_max_channel c6cX 1).1.val 0 = 5 := by
  show epsIfZero (listMax ((List.range 1).map fun i => c6cX.val i 0)) = 5
  have hr : List.range 1 = [0] := rfl
  rw [hr]
  simp only [List.map_cons, List.map_nil, c6cX_val]
  norm_num [listMax, epsIfZero]

theorem c6cX_mins : (cal_abs_min_max_channel c6cX 1).2.val 0 = 5 := by
  show epsIfZero (listMin ((List.range 1).map fun i => c6cX.val i 0)) = 5
  have hr : List.range 1 = [0] := rfl
  rw [hr]
  simp only [List.map_cons, List.map_nil, c6cX_val]
  norm_num [listMin, epsIfZero]

/-- Counterexample to C6 as stated: on the constant 1 x 1 input [[5]] with
quant_bit 4 the computed statistics are maxs = mins = 5 (the epsilon guard
does not fire, it protects each statistic, not their difference), the scale
maxs - mins is exactly 0, the quantize divide produces NaN, and
astype(np.uint8) of NaN is undefined in the source: the returned entry is no
integer at all, so it is not an element of [0, 2^4 - 1]. -/
theorem asym_quant_zero_scale_cex :
    (cal_abs_min_max_channel c6cX 1).1.val 0 - (cal_abs_min_max_channel c6cX 1).2.val 0 = 0 ∧
    (asymmetry_qdq_weight_quant_raw c6cX 4
        (cal_abs_min_max_channel c6cX 1).2 (cal_abs_min_max_channel c6cX 1).1).val 0 0 =
      NF.nan ∧
    (asymmetry_qdq_weight_quant c6cX 4
        (cal_abs_min_max_channel c6cX 1).2 (cal_abs_min_max_channel c6cX 1).1).1.val 0 0 =
      none ∧
    (∀ n : ℤ, (asymmetry_qdq_weight_quant c6cX 4
        (cal_abs_min_max_channel c6cX 1).2 (cal_abs_min_max_channel c6cX 1).1).1.val 0 0 ≠
      some n) ∧
    asymmetry_qdq_weight c6cX 4 0 none none false (-1) 1 false =
      Sum.inl (asymmetry_qdq_weight_quant c6cX 4
        (cal_abs_min_max_channel c6cX 1).2 (cal_abs_min_max_channel c6cX 1).1) := by
  have hscale : (cal_abs_min_max_channel c6cX 1).1.val 0 -
      (cal_abs_min_max_channel c6cX 1).2.val 0 = 0 := by
    rw [c6cX_maxs, c6cX_mins, sub_self]
  have hraw : (asymmetry_qdq_weight_quant_raw c6cX 4
      (cal_abs_min_max_channel c6cX 1).2 (cal_abs_min_max_channel c6cX 1).1).val 0 0 =
      NF.nan := by
    show nfClip (nfRound (nfMulConst (nfDiv
        (c6cX.val 0 0 - (cal_abs_min_max_channel c6cX 1).2.val 0)
        ((cal_abs_min_max_channel c6cX 1).1.val 0 - (cal_abs_min_max_channel c6cX 1).2.val 0))
        ((2 : ℚ) ^ 4 - 1))) 0 ((2 : ℚ) ^ 4 - 1) = NF.nan
    rw [c6cX_val, c6cX_maxs, c6cX_mins]
    simp only [sub_self]
    simp [nfDiv, nfMulConst, nfRound, nfClip]
  have hnone : (asymmetry_qdq_weight_quant c6cX 4
      (cal_abs_min_max_channel c6cX 1).2 (cal_abs_min_max_channel c6cX 1).1).1.val 0 0 =
      none := by
    show castU8Opt ((asymmetry_qdq_weight_quant_raw c6cX 4
        (cal_abs_min_max_channel c6cX 1).2 (cal_abs_min_max_channel c6cX 1).1).val 0 0) = none
    rw [hraw]
    rfl
  refine ⟨hscale, hraw, hnone, ?_, rfl⟩
  intro n hn
  rw [hnone] at hn
  exact Option.noConfusion hn

/-- Witness for C6 (amended): on the 2 x 1 input (1, 3) at quant_bit 8 the
channel statistics are mins = 1 and maxs = 3, the scale 2 is nonzero, and
the entry 3 quantizes to some (round((3 - 1) / 2 * 255)) = some 255, whose
value lies in [0, 2^8 - 1]. -/
theorem asymmetry_qdq_weight_quant_spec_witness :
    asymmetry_qdq_weight c6X 8 0 none none false (-1) 1 false =
      Sum.inl (asymmetry_qdq_weight_quant c6X 8
        (cal_abs_min_max_channel c6X 1).2 (cal_abs_min_max_channel c6X 1).1) ∧
    (asymmetry_qdq_weight_quant c6X 8
        (cal_abs_min_max_channel c6X 1).2 (cal_abs_min_max_channel c6X 1).1).1.val 1 0 =
      some 255 ∧
    (0 : ℤ) ≤ 255 ∧ (255 : ℤ) ≤ 2 ^ 8 - 1 := by
  have h := asymmetry_qdq_weight_quant_spec c6X 8 0 (-1) 1 false (by norm_num)
  have hne : (cal_abs_min_max_channel c6X 1).1.val 0 -
      (cal_abs_min_max_channel c6X 1).2.val 0 ≠ 0 := by
    rw [c6X_maxs, c6X_mins]
    norm_num
  have hv := h.2.1 (cal_abs_min_max_channel c6X 1).2 (cal_abs_min_max_channel c6X 1).1 1 0 hne
  have hval : (asymmetry_qdq_weight_quant c6X 8
      (cal_abs_min_max_channel c6X 1).2 (cal_abs_min_max_channel c6X 1).1).1.val 1 0 =
      some 255 := by
    rw [hv, c6X_val1, c6X_maxs, c6X_mins]
    have harg : ((3 : ℚ) - 1) / (3 - 1) * ((2 : ℚ) ^ 8 - 1) = ((255 : ℤ) : ℚ) := by norm_num
    rw [harg, npRound_intCast]
    decide
  have hb := h.2.2.1 (cal_abs_min_max_channel c6X 1).2 (cal_abs_min_max_channel c6X 1).1
    1 0 255 hval
  exact ⟨h.1, hval, hb.1, hb.2⟩

/-- C8: the channel statistics functions replace any statistic that is
exactly zero with the epsilon 1e-8: for a channel j whose entries are all
zero, cal_abs_max_channel returns 1e-8 (not 0) and both components of
cal_abs_min_max_channel return 1e-8; moreover no statistic either function
returns is ever exactly zero. -/
theorem channel_stats_eps_guard_spec :
    ∀ (x : Arr2 ℚ) (j : ℕ), 0 < x.rows → (∀ i < x.rows, x.val i j = 0) →
      (cal_abs_max_channel x 1).val j = npEps ∧
      (cal_abs_min_max_channel x 1).1.val j = npEps ∧
      (cal_abs_min_max_channel x 1).2.val j = npEps ∧
      ∀ (y : Arr2 ℚ) (k : ℕ), (cal_abs_max_channel y 1).val k ≠ 0 ∧
        (cal_abs_min_max_channel y 1).1.val k ≠ 0 ∧
        (cal_abs_min_max_channel y 1).2.val k ≠ 0 := by
  intro x j hr h
  have hne : ∀ f : ℕ → ℚ, ((List.range x.rows).map f) ≠ [] := by
    intro f
    apply List.ne_nil_of_length_pos
    simpa using hr
  have habs : listMax ((List.range x.rows).map fun i => |x.val i j|) = 0 := by
    apply listMax_all_eq _ 0 (hne _)
    intro b hb
    obtain ⟨i, hi, rfl⟩ := List.mem_map.1 hb
    rw [h i (List.mem_range.1 hi)]
    exact abs_zero
  have hmax0 : listMax ((List.range x.rows).map fun i => x.val i j) = 0 := by
    apply listMax_all_eq _ 0 (hne _)
    intro b hb
    obtain ⟨i, hi, rfl⟩ := List.mem_map.1 hb
    exact h i (List.mem_range.1 hi)
  have hmin0 : listMin ((List.range x.rows).map fun i => x.val i j) = 0 := by
    apply listMin_all_eq _ 0 (hne _)
    intro b hb
    obtain ⟨i, hi, rfl⟩ := List.mem_map.1 hb
    exact h i (List.mem_range.1 hi)
  refine ⟨?_, ?_, ?_, ?_⟩
  · show epsIfZero (listMax ((List.range x.rows).map fun i => |x.val i j|)) = npEps
    rw [habs]
    simp [epsIfZero]
  · show epsIfZero (listMax ((List.range x.rows).map fun i => x.val i j)) = npEps
    rw [hmax0]
    simp [epsIfZero]
  · show epsIfZero (listMin ((List.range x.rows).map fun i => x.val i j)) = npEps
    rw [hmin0]
    simp [epsIfZero]
  · intro y k
    refine ⟨?_, ?_, ?_⟩
    · show epsIfZero (listMax ((List.range y.rows).map fun i => |y.val i k|)) ≠ 0
      exact epsIfZero_ne_zero _
    · show epsIfZero (listMax ((List.range y.rows).map fun i => y.val i k)) ≠ 0
      exact epsIfZero_ne_zero _
    · show epsIfZero (listMin ((List.range y.rows).map fun i => y.val i k)) ≠ 0
      exact epsIfZero_ne_zero _

/-- Witness for C8: on an all-zero 2 x 1 input, all three channel statistics
evaluate to the epsilon 1e-8. -/
theorem channel_stats_eps_guard_spec_witness :
    (cal_abs_max_channel c8X 1).val 0 = npEps ∧
    (cal_abs_min_max_channel c8X 1).1.val 0 = npEps ∧
    (cal_abs_min_max_channel c8X 1).2.val 0 = npEps ∧
    npEps = 1 / 100000000 := by
  have h := channel_stats_eps_guard_spec c8X 0 (by decide) (fun i _ => rfl)
  exact ⟨h.1, h.2.1, h.2.2.1, rfl⟩

/-- C7: in group-wise asymmetric quantize, a group (g, c) whose elements are
all equal has scale max - min exactly 0 (no epsilon substitution happens in
this path), the divide produces NaN at every entry of the group, and
np.nan_to_num replaces every NaN of the quantized tensor with 0 before the
uint8 cast; by contrast the channel-wise statistics functions never return a
zero statistic, because they epsilon-guard zeros before any divide. -/
theorem group_asym_nan_scrub_spec :
    ∀ (inputs : Arr2 ℚ) (quant_bits group_size g c : ℕ) (v : ℚ), 0 < group_size →
      (∀ r < group_size, inputs.val (g * group_size + r) c = v) →
      (gw_asym_scales inputs group_size).val g c = 0 ∧
      (∀ r < group_size,
        (group_wise_quant_asym_raw inputs quant_bits group_size).val
          (g * group_size + r) c = NF.nan) ∧
      (∀ r < group_size,
        (group_wise_quant_asym inputs quant_bits group_size).1.val
          (g * group_size + r) c = 0) ∧
      (∀ (A : Arr2 ℚ) (i j : ℕ),
        (group_wise_quant_asym_raw A quant_bits group_size).val i j = NF.nan →
        (group_wise_quant_asym A quant_bits group_size).1.val i j = 0) ∧
      (∀ (y : Arr2 ℚ) (k : ℕ), (cal_abs_min_max_channel y 1).1.val k ≠ 0 ∧
        (cal_abs_min_max_channel y 1).2.val k ≠ 0) := by
  intro inputs b gs g c v hgs h
  have hne : ((List.range gs).map fun r => inputs.val (g * gs + r) c) ≠ [] := by
    apply List.ne_nil_of_length_pos
    simpa using hgs
  have hmem : ∀ x ∈ (List.range gs).map fun r => inputs.val (g * gs + r) c, x = v := by
    intro x hx
    obtain ⟨r, hr, rfl⟩ := List.mem_map.1 hx
    exact h r (List.mem_range.1 hr)
  have hmax : (gw_group_maxs inputs gs).val g c = v := by
    show listMax ((List.range gs).map fun r => inputs.val (g * gs + r) c) = v
    exact listMax_all_eq _ v hne hmem
  have hmin : (gw_group_mins inputs gs).val g c = v := by
    show listMin ((List.range gs).map fun r => inputs.val (g * gs + r) c) = v
    exact listMin_all_eq _ v hne hmem
  have hscale : (gw_asym_scales inputs gs).val g c = 0 := by
    show (gw_group_maxs inputs gs).val g c - (gw_group_mins inputs gs).val g c = 0
    rw [hmax, hmin, sub_self]
  have hidx : ∀ r < gs, (g * gs + r) / gs = g := by
    intro r hr
    rw [mul_comm, Nat.mul_add_div hgs, Nat.div_eq_of_lt hr, add_zero]
  have hraw : ∀ r < gs,
      (group_wise_quant_asym_raw inputs b gs).val (g * gs + r) c = NF.nan := by
    intro r hr
    show nfClip (nfRound (nfMulConst (nfDiv
        (inputs.val (g * gs + r) c -
          (npRepeat0 (gw_group_mins inputs gs) gs).val (g * gs + r) c)
        ((npRepeat0 (gw_asym_scales inputs gs) gs).val (g * gs + r) c))
        ((2 : ℚ) ^ b - 1))) 0 ((2 : ℚ) ^ b - 1) = NF.nan
    have h1 : (npRepeat0 (gw_group_mins inputs gs) gs).val (g * gs + r) c =
        (gw_group_mins inputs gs).val ((g * gs + r) / gs) c := rfl
    have h2 : (npRepeat0 (gw_asym_scales inputs gs) gs).val (g * gs + r) c =
        (gw_asym_scales inputs gs).val ((g * gs + r) / gs) c := rfl
    rw [h1, h2, hidx r hr, hmin, hscale, h r hr, sub_self]
    simp [nfDiv, nfMulConst, nfRound, nfClip]
  have hscrub : ∀ (A : Arr2 ℚ) (i j : ℕ),
      (group_wise_quant_asym_raw A b gs).val i j = NF.nan →
      (group_wise_quant_asym A b gs).1.val i j = 0 := by
    intro A i j hnan
    show castU8 (npNanToNum ((group_wise_quant_asym_raw A b gs).val i j)) = 0
    rw [hnan]
    show castU8 (NF.fin 0) = 0
    simp [castU8, truncQ]
  refine ⟨hscale, hraw, fun r hr => hscrub inputs _ c (hraw r hr), hscrub, ?_⟩
  intro y k
  constructor
  · show epsIfZero (listMax ((List.range y.rows).map fun i => y.val i k)) ≠ 0
    exact epsIfZero_ne_zero _
  · show epsIfZero (listMin ((List.range y.rows).map fun i => y.val i k)) ≠ 0
    exact epsIfZero_ne_zero _

/-- Witness for C7: on the constant group c7X with group_size 2 and
quant_bits 4, the group scale is exactly 0, the raw quantized entry is NaN,
and the scrubbed quantized entry is 0; the channel statistics of the same
input are nonzero. -/
theorem group_asym_nan_scrub_spec_witness :
    (gw_asym_scales c7X 2).val 0 0 = 0 ∧
    (group_wise_quant_asym_raw c7X 4 2).val 0 0 = NF.nan ∧
    (group_wise_quant_asym c7X 4 2).1.val 0 0 = 0 ∧
    ((cal_abs_min_max_channel c7X 1).1.val 0 ≠ 0 ∧
      (cal_abs_min_max_channel c7X 1).2.val 0 ≠ 0) := by
  have h := group_asym_nan_scrub_spec c7X 4 2 0 0 5 (by decide) (fun _ _ => rfl)
  exact ⟨h.1, h.2.1 0 (by decide), h.2.2.1 0 (by decide), h.2.2.2.2 c7X 0⟩

/-- Counterexample to C2: the codecs do not select identical sub-ranges.  In
the row-parallel configuration (last dimension of the data equal to the last
dimension of S) with tp_rank = 0, tp_degree = 2, the channel-wise selection
(qdq_weight, lines 338-340) returns S whole and not the claimed first-axis
block 0 (which has length 1, not 2), while the group-wise selection (lines
106-114) does return exactly that first-axis block. -/
theorem shard_slice_rules_differ_cex :
    VecEq (qdq_scale_select c2S 2 0 2) c2S ∧
    ¬ VecEq (qdq_scale_select c2S 2 0 2) (vecPySlice c2S 0 1) ∧
    MatEq (gw_sym_scale_select c2M 1 0 2) (matPySlice0 c2M 0 1) ∧
    ¬ MatEq (gw_sym_scale_select c2M 1 0 2) c2M := by
  refine ⟨vecEq_refl _, ?_, matEq_refl _, ?_⟩
  · intro hEq
    exact absurd hEq.1 (by decide)
  · intro hEq
    exact absurd hEq.1 (by decide)

/-- C2 (amended): the two group-wise dequantize paths apply an identical
sub-range selection rule to the broadcast scales (rank -1 unsliced, first
axis sliced in the row-parallel case, last axis in the column-parallel
case), and the two channel-wise dequantize paths apply an identical rule to
each other; but the channel-wise rule uses S unsliced in the row-parallel
case and slices the first axis of S (which is the last axis of its 1-d
scales) in the column-parallel case. -/
theorem shard_slice_rules_amended :
    (∀ (S : Arr2 ℚ) (inputs_last : ℕ) (tp_rank tp_degree : ℤ),
      MatEq (gw_sym_scale_select S inputs_last tp_rank tp_degree)
        (gw_asym_scale_select S inputs_last tp_rank tp_degree)) ∧
    (∀ (sc : Arr1 ℚ) (quant_x_last : ℕ) (tp_rank tp_degree : ℤ),
      VecEq (qdq_scale_select sc quant_x_last tp_rank tp_degree)
        (asym_scale_select sc quant_x_last tp_rank tp_degree)) ∧
    (∀ (sc : Arr1 ℚ) (quant_x_last : ℕ) (tp_rank tp_degree : ℤ), quant_x_last = sc.len →
      qdq_scale_select sc quant_x_last tp_rank tp_degree = sc) ∧
    (∀ (sc : Arr1 ℚ) (quant_x_last : ℕ) (tp_rank tp_degree : ℤ), quant_x_last ≠ sc.len →
      qdq_scale_select sc quant_x_last tp_rank tp_degree =
        vecPySlice sc (Int.fdiv (tp_rank * sc.len) tp_degree)
          (Int.fdiv ((tp_rank + 1) * sc.len) tp_degree)) := by
  refine ⟨fun S iLast r d => matEq_refl _, fun sc qLast r d => vecEq_refl _, ?_, ?_⟩
  · intro sc qLast r d hq
    unfold qdq_scale_select
    rw [if_pos hq]
  · intro sc qLast r d hq
    unfold qdq_scale_select
    rw [if_neg hq]

/-- Witness for C2 (amended) at concrete tensors: the channel-wise selection
keeps [1, 2] whole in the row-parallel case and slices it in the
column-parallel case; the paired selections agree. -/
theorem shard_slice_rules_amended_witness :
    qdq_scale_select c2S 2 0 2 = c2S ∧
    qdq_scale_select c2S 3 0 2 =
      vecPySlice c2S (Int.fdiv (0 * c2S.len) 2) (Int.fdiv ((0 + 1) * c2S.len) 2) ∧
    MatEq (gw_sym_scale_select c2M 1 0 2) (gw_asym_scale_select c2M 1 0 2) ∧
    VecEq (qdq_scale_select c2S 2 0 2) (asym_scale_select c2S 2 0 2) := by
  have h := shard_slice_rules_amended
  exact ⟨h.2.2.1 c2S 2 0 2 rfl, h.2.2.2 c2S 3 0 2 (by decide),
    h.1 c2M 1 0 2, h.2.1 c2S 2 0 2⟩

/-- Counterexample to C4: in the channel-wise dequantize paths tp_rank = -1
is not a no-op for every S and D.  With S = [1, 2] and a data tensor whose
last dimension is 3 (column-parallel branch), rank -1 produces the python
slice S[-2 : 0], which is empty, not S. -/
theorem rank_neg_one_channel_slice_cex :
    ¬ VecEq (qdq_scale_select c4S 3 (-1) 1) c4S ∧
    (qdq_scale_select c4S 3 (-1) 1).len = 0 ∧
    ¬ VecEq (asym_scale_select c4S 3 (-1) 1) c4S := by
  refine ⟨?_, by decide, ?_⟩
  · intro hEq
    exact absurd hEq.1 (by decide)
  · intro hEq
    exact absurd hEq.1 (by decide)

/-- C4 (amended): the group-wise dequantize paths have an explicit
tp_rank = -1 branch and use the (broadcast) scales and mins unsliced for any
tp_degree; the channel-wise dequantize paths have no such branch: with
tp_rank = -1 they use S unsliced exactly in the row-parallel case (the last
dimension of the data equals the length of S), while the column-parallel
branch produces an empty slice. -/
theorem rank_neg_one_noop_amended :
    (∀ (S M : Arr2 ℚ) (inputs_last : ℕ) (tp_degree : ℤ),
      gw_sym_scale_select S inputs_last (-1) tp_degree = S ∧
      gw_asym_scale_select S inputs_last (-1) tp_degree = S ∧
      gw_asym_mins_select S M inputs_last (-1) tp_degree = M) ∧
    (∀ (sc mn : Arr1 ℚ) (quant_x_last : ℕ) (tp_degree : ℤ), quant_x_last = sc.len →
      qdq_scale_select sc quant_x_last (-1) tp_degree = sc ∧
      asym_scale_select sc quant_x_last (-1) tp_degree = sc ∧
      asym_mins_select mn sc quant_x_last (-1) tp_degree = mn) := by
  constructor
  · intro S M iLast d
    exact ⟨rfl, rfl, rfl⟩
  · intro sc mn qLast d hq
    refine ⟨?_, ?_, ?_⟩
    · unfold qdq_scale_select
      rw [if_pos hq]
    · unfold asym_scale_select
      rw [if_pos hq]
    · unfold asym_mins_select
      rw [if_pos hq]

/-- Witness for C4 (amended) at concrete tensors: rank -1 leaves the
group-wise selections and the row-parallel channel-wise selections
untouched. -/
theorem rank_neg_one_noop_amended_witness :
    gw_sym_scale_select c2M 1 (-1) 7 = c2M ∧
    gw_asym_mins_select c2M c2M 1 (-1) 7 = c2M ∧
    qdq_scale_select c4S 2 (-1) 7 = c4S ∧
    asym_mins_select c4S c4S 2 (-1) 7 = c4S := by
  have h := rank_neg_one_noop_amended
  exact ⟨(h.1 c2M c2M 1 7).1, (h.1 c2M c2M 1 7).2.2,
    (h.2 c4S c4S 2 7 rfl).1, (h.2 c4S c4S 2 7 rfl).2.2⟩
